import Mathlib

/-!
Verification of the log-ingestion pipeline (`cpp_ingestor/src/main.cpp`)
against its design specification.

The development shallowly embeds the program's components:

* `LogEntry` — the parsed record (struct `LogEntry`).
* `QueueState`, `push`, `pop`, `mark_finished` — the `ThreadSafeQueue`.
  The mutex makes each member function one atomic step on the protected
  state `(queue_, finished_)`; `pop`'s condition-variable wait is modelled
  by a `blocked` outcome whenever the wait predicate
  `finished_ || !queue_.empty()` is false.
* `IStream`, `extractToken`, `parse_line` — `std::istringstream` formatted
  extraction of `std::string` (sentry / skip-whitespace / eofbit / failbit
  semantics of `operator>>`) and the function `parse_line`.
* `renderLine`, `mkOutputWriter`, `OutputWriter.write` — the `OutputWriter`
  sink; `write` returns the bytes appended to the destination.
* `SinkSys`, `SStep` — an interleaving small-step semantics for concurrent
  `write` calls guarded by the sink's mutex: a call acquires the free lock,
  emits its rendered chunks one at a time, and releases.
-/

namespace Ingest

/-- The record type, from `struct LogEntry`. -/
structure LogEntry where
  timestamp : String
  level : String
  service : String
  message : String
deriving DecidableEq, Repr

/-! ## ThreadSafeQueue -/

/-- The mutex-protected state of `ThreadSafeQueue`: the pending entries in
front-to-back order (`queue_`) and the `finished_` flag. -/
structure QueueState where
  queue : List LogEntry
  finished : Bool
deriving DecidableEq, Repr

/-- `ThreadSafeQueue::push`: enqueue at the back (`queue_.push`). -/
def push (e : LogEntry) (s : QueueState) : QueueState :=
  ⟨s.queue ++ [e], s.finished⟩

/-- `ThreadSafeQueue::mark_finished`: set the `finished_` flag. -/
def mark_finished (s : QueueState) : QueueState :=
  ⟨s.queue, true⟩

/-- Outcome of one `ThreadSafeQueue::pop` attempt: the consumer is still
blocked in `cv_.wait` (wait predicate false), or the call returns `false`
("exhausted"), or it dequeues the front entry and returns `true`. -/
inductive PopResult where
  | blocked
  | exhausted
  | popped (e : LogEntry) (s : QueueState)
deriving DecidableEq, Repr

/-- `ThreadSafeQueue::pop`: wait until `finished_ || !queue_.empty()`;
then return `false` if the queue is empty, else dequeue the front. -/
def pop (s : QueueState) : PopResult :=
  if s.finished = false ∧ s.queue = [] then .blocked
  else
    match s.queue with
    | [] => .exhausted
    | e :: rest => .popped e ⟨rest, s.finished⟩

/-- An operation invoked on the queue by the producer or a consumer. -/
inductive QOp where
  | push (e : LogEntry)
  | pop
  | finish
deriving DecidableEq, Repr

/-- Apply one operation; a `pop` that would block or reports exhaustion
leaves the state unchanged and returns no entry. -/
def applyOp (s : QueueState) : QOp → QueueState × Option LogEntry
  | .push e => (push e s, none)
  | .pop =>
    match pop s with
    | .popped e s' => (s', some e)
    | _ => (s, none)
  | .finish => (mark_finished s, none)

/-- Run a sequence of operations, collecting the dequeued entries in the
order the `pop`s returned them. -/
def runOps (s : QueueState) : List QOp → QueueState × List LogEntry
  | [] => (s, [])
  | op :: ops =>
    let r := applyOp s op
    let rest := runOps r.1 ops
    (rest.1, r.2.toList ++ rest.2)

/-- The entries pushed by a sequence of operations, in push order. -/
def pushes (ops : List QOp) : List LogEntry :=
  ops.filterMap fun op =>
    match op with
    | .push e => some e
    | _ => none

/-- The initial queue: empty, not finished. -/
def initQueue : QueueState := ⟨[], false⟩

/-! ## Queue lemmas -/

theorem runOps_invariant (ops : List QOp) :
    ∀ s : QueueState,
      (runOps s ops).2 ++ (runOps s ops).1.queue = s.queue ++ pushes ops := by
  induction ops with
  | nil => intro s; simp [runOps, pushes]
  | cons op ops ih =>
    intro s
    match op with
    | .push e =>
      simp only [runOps, applyOp, pushes, List.filterMap_cons]
      simpa [push, pushes] using ih (push e s)
    | .finish =>
      simp only [runOps, applyOp, pushes, List.filterMap_cons]
      simpa [mark_finished, pushes] using ih (mark_finished s)
    | .pop =>
      rcases hs : s.queue with _ | ⟨e, rest⟩
      · have hp : applyOp s .pop = (s, none) := by
          rcases hf : s.finished with _ | _ <;> simp [applyOp, pop, hs, hf]
        simp only [runOps, hp, Option.toList_none, List.nil_append]
        simpa [pushes, List.filterMap_cons, hs] using ih s
      · have hp : applyOp s .pop = (⟨rest, s.finished⟩, some e) := by
          simp [applyOp, pop, hs]
        simp only [runOps, hp, Option.toList_some]
        have h2 := ih ⟨rest, s.finished⟩
        simp [List.cons_append, h2, hs, pushes, List.filterMap_cons]

theorem finished_mono (ops : List QOp) :
    ∀ s : QueueState, s.finished = true →
      ((runOps s ops).1).finished = true := by
  induction ops with
  | nil => intro s h; simpa [runOps] using h
  | cons op ops ih =>
    intro s h
    match op with
    | .push e => exact ih (push e s) (by simpa [push] using h)
    | .finish => exact ih (mark_finished s) (by simp [mark_finished])
    | .pop =>
      rcases hs : s.queue with _ | ⟨e, rest⟩
      · have hp : pop s = .exhausted := by simp [pop, hs, h]
        simpa [runOps, applyOp, hp] using ih s h
      · have hp : pop s = .popped e ⟨rest, s.finished⟩ := by simp [pop, hs]
        simpa [runOps, applyOp, hp] using ih ⟨rest, s.finished⟩ (by simpa using h)

/-! ## Claims about the queue -/

/-- C1: `pop` reports "exhausted" exactly when the queue is empty and
`mark_finished` has happened; it blocks exactly when the queue is empty
and not finished (so it never blocks once finished); and after
`mark_finished` on a queue that never received a push, `pop` reports
"exhausted" immediately. -/
theorem C1_pop_exhausted_iff (s : QueueState) :
    (pop s = .exhausted ↔ s.queue = [] ∧ s.finished = true)
    ∧ (pop s = .blocked ↔ s.queue = [] ∧ s.finished = false)
    ∧ pop (mark_finished initQueue) = .exhausted := by
  refine ⟨?_, ?_, by simp [pop, mark_finished, initQueue]⟩
  · rcases s with ⟨q, f⟩
    rcases q with _ | ⟨e, rest⟩ <;> rcases f with _ | _ <;> simp [pop]
  · rcases s with ⟨q, f⟩
    rcases q with _ | ⟨e, rest⟩ <;> rcases f with _ | _ <;> simp [pop]

/-- C6: the queue is FIFO: over any operation sequence, the entries
returned by the `pop`s followed by the entries still queued are exactly
the prior contents followed by the pushed entries in push order (so a
full drain returns exactly the push sequence); and a successful `pop`
dequeues the front — the earliest-pushed — entry. -/
theorem C6_fifo :
    (∀ (s : QueueState) (ops : List QOp),
        (runOps s ops).2 ++ (runOps s ops).1.queue = s.queue ++ pushes ops)
    ∧ (∀ ops : List QOp,
        (runOps initQueue ops).1.queue = [] →
        (runOps initQueue ops).2 = pushes ops)
    ∧ (∀ (e : LogEntry) (rest : List LogEntry) (f : Bool),
        pop ⟨e :: rest, f⟩ = .popped e ⟨rest, f⟩) := by
  refine ⟨fun s ops => runOps_invariant ops s, fun ops h => ?_, ?_⟩
  · have h2 := runOps_invariant ops initQueue
    rw [h] at h2
    simpa [initQueue] using h2
  · intro e rest f; simp [pop]

/-- C8: `mark_finished` is idempotent — the state after two calls equals
the state after one, hence every later observation agrees — and the flag
is one-way: after any further operation sequence it is still set. -/
theorem C8_mark_finished_idempotent :
    (∀ s : QueueState, mark_finished (mark_finished s) = mark_finished s)
    ∧ (∀ (s : QueueState) (ops : List QOp),
        ((runOps (mark_finished s) ops).1).finished = true) := by
  refine ⟨fun s => by simp [mark_finished], fun s ops => ?_⟩
  exact finished_mono ops (mark_finished s) (by simp [mark_finished])

/-- C10: the finished flag does not close the producer side: `push` after
`mark_finished` still enqueues the entry (no error path), a subsequent
`pop` on an otherwise empty queue returns that entry rather than
"exhausted", and `pop` never reports "exhausted" while any entry is
queued. -/
theorem C10_push_after_finished (s : QueueState) (e : LogEntry) :
    push e (mark_finished s) = ⟨s.queue ++ [e], true⟩
    ∧ pop (push e (mark_finished ⟨[], s.finished⟩)) = .popped e ⟨[], true⟩
    ∧ (∀ (x : LogEntry) (rest : List LogEntry) (f : Bool),
        pop ⟨x :: rest, f⟩ ≠ .exhausted) := by
  refine ⟨by simp [push, mark_finished], by simp [push, mark_finished, pop], ?_⟩
  intro x rest f
  simp [pop]

/-! ## LineParser

`parse_line` uses `std::istringstream` extraction `iss >> date >> time >>
entry.level >> entry.service`.  Formatted extraction into a `std::string`:
the sentry fails (setting `failbit`, leaving the destination untouched)
when the stream already has `failbit`/`eofbit` set or when skipping
whitespace exhausts the input; otherwise the destination is erased and the
maximal run of non-whitespace characters is stored, with `eofbit` set when
the run reaches the end of the input. -/

/-- The characters the classic locale's `isspace` accepts (the delimiters
of `operator>>` and of the spec's "whitespace-separated tokens"). -/
def cppIsSpace (c : Char) : Bool :=
  c = ' ' || c = '\t' || c = '\n' || c = '\x0b' || c = '\x0c' || c = '\r'

/-- The state of the `istringstream`: remaining characters, `eofbit`,
`failbit`. -/
structure IStream where
  rem : List Char
  eofb : Bool
  failb : Bool
deriving DecidableEq, Repr

/-- One formatted extraction `is >> str` into a `std::string`. -/
def extractToken (s : IStream) (dest : String) : IStream × String :=
  if s.failb || s.eofb then
    ({ s with failb := true }, dest)
  else
    match s.rem.dropWhile cppIsSpace with
    | [] => (⟨[], true, true⟩, dest)
    | c :: cs =>
      let tok := (c :: cs).takeWhile fun x => !(cppIsSpace x)
      let rem' := (c :: cs).dropWhile fun x => !(cppIsSpace x)
      (⟨rem', rem'.isEmpty, false⟩, ⟨tok⟩)

/-- `if (!rest.empty() && rest[0] == ' ') rest.erase(0, 1);` — remove one
leading space character, if present. -/
def stripOneSpace : List Char → List Char
  | ' ' :: tl => tl
  | l => l

/-- The function `parse_line`: extract four tokens; on failure return
`false` with the entry as the extractions left it; on success read the
remainder of the line (`getline`), strip one leading space, and fill all
four record fields. -/
def parse_line (line : String) (entry : LogEntry) : Bool × LogEntry :=
  let r0 := extractToken ⟨line.data, false, false⟩ ""
  let r1 := extractToken r0.1 ""
  let r2 := extractToken r1.1 entry.level
  let r3 := extractToken r2.1 entry.service
  if r3.1.failb then
    (false, { entry with level := r2.2, service := r3.2 })
  else
    (true, { timestamp := r0.2 ++ " " ++ r1.2, level := r2.2, service := r3.2,
             message := ⟨stripOneSpace r3.1.rem⟩ })

/-! ### The spec-side tokenizer

`tokens` splits a line into its whitespace-separated tokens, written with
explicit fuel so that it is structural (and hence evaluates inside the
kernel); `tokens_unfold` recovers the natural recursion. -/

/-- The first whitespace-separated token of `l` and the characters after
it, or `none` when `l` is blank. -/
def nextTok (l : List Char) : Option (List Char × List Char) :=
  match l.dropWhile cppIsSpace with
  | [] => none
  | c :: cs =>
    some ((c :: cs).takeWhile (fun x => !(cppIsSpace x)),
          (c :: cs).dropWhile (fun x => !(cppIsSpace x)))

/-- Fuelled token splitting. -/
def tokensFuel : Nat → List Char → List (List Char)
  | 0, _ => []
  | fuel + 1, l =>
    match nextTok l with
    | none => []
    | some (t, r) => t :: tokensFuel fuel r

/-- The whitespace-separated tokens of a line. -/
def tokens (l : List Char) : List (List Char) :=
  tokensFuel (l.length + 1) l

/-- The characters remaining after the first `n` tokens of `l` (blank if
fewer than `n` tokens exist). -/
def restAfter : Nat → List Char → List Char
  | 0, l => l
  | n + 1, l =>
    match nextTok l with
    | none => []
    | some (_, r) => restAfter n r

/-! ### Tokenizer lemmas -/

theorem nextTok_some_length {l t r : List Char}
    (h : nextTok l = some (t, r)) : r.length < l.length := by
  unfold nextTok at h
  rcases hd : l.dropWhile cppIsSpace with _ | ⟨c, cs⟩
  · rw [hd] at h; exact absurd h (by simp)
  · rw [hd] at h
    simp only [Option.some.injEq, Prod.mk.injEq] at h
    have hlen : (c :: cs).length ≤ l.length := by
      have h2 := (List.dropWhile_sublist (l := l) cppIsSpace).length_le
      rwa [hd] at h2
    have hc : cppIsSpace c = false := by
      have h2 := List.head?_dropWhile_not cppIsSpace l
      rw [hd] at h2
      simpa using h2
    have hr : r = cs.dropWhile fun x => !(cppIsSpace x) := by
      rw [← h.2, List.dropWhile_cons]
      simp [hc]
    have hrle : r.length ≤ cs.length := by
      rw [hr]; exact (List.dropWhile_sublist _).length_le
    calc r.length ≤ cs.length := hrle
      _ < (c :: cs).length := by simp
      _ ≤ l.length := hlen

theorem tokensFuel_congr : ∀ (f₁ f₂ : Nat) (l : List Char),
    l.length < f₁ → l.length < f₂ → tokensFuel f₁ l = tokensFuel f₂ l := by
  intro f₁
  induction f₁ with
  | zero => intro f₂ l h₁ h₂; exact absurd h₁ (Nat.not_lt_zero _)
  | succ g ih =>
    intro f₂ l h₁ h₂
    cases f₂ with
    | zero => exact absurd h₂ (Nat.not_lt_zero _)
    | succ g₂ =>
      rcases hn : nextTok l with _ | ⟨t, r⟩
      · simp only [tokensFuel, hn]
      · have hr := nextTok_some_length hn
        simp only [tokensFuel, hn]
        congr 1
        exact ih g₂ r (by omega) (by omega)

theorem tokens_unfold (l : List Char) :
    tokens l =
      match nextTok l with
      | none => []
      | some (t, r) => t :: tokens r := by
  rcases hn : nextTok l with _ | ⟨t, r⟩
  · simp only [tokens, tokensFuel, hn]
  · simp only [tokens, tokensFuel, hn]
    congr 1
    exact tokensFuel_congr l.length (r.length + 1) r (nextTok_some_length hn) (by omega)

theorem tokens_eq_nil {l : List Char} (h : nextTok l = none) : tokens l = [] := by
  rw [tokens_unfold, h]

theorem tokens_eq_cons {l t r : List Char} (h : nextTok l = some (t, r)) :
    tokens l = t :: tokens r := by
  rw [tokens_unfold, h]

/-! ### Extraction lemmas -/

theorem extractToken_good (r : List Char) (d : String) :
    extractToken ⟨r, false, false⟩ d =
      match nextTok r with
      | none => (⟨[], true, true⟩, d)
      | some (t, r') => (⟨r', r'.isEmpty, false⟩, ⟨t⟩) := by
  unfold extractToken nextTok
  rcases hd : r.dropWhile cppIsSpace with _ | ⟨c, cs⟩ <;> simp [hd]

theorem extractToken_after (r : List Char) (d : String) :
    extractToken ⟨r, r.isEmpty, false⟩ d =
      match nextTok r with
      | none => (⟨[], true, true⟩, d)
      | some (t, r') => (⟨r', r'.isEmpty, false⟩, ⟨t⟩) := by
  cases r with
  | nil => simp [extractToken, nextTok]
  | cons c cs => exact extractToken_good (c :: cs) d

theorem extractToken_dead (d : String) :
    extractToken ⟨[], true, true⟩ d = (⟨[], true, true⟩, d) := rfl

/-- The behaviour of `parse_line`, by token count of the line: four or
more tokens parse; exactly three fail but overwrite `level`; fewer leave
the entry untouched. -/
theorem parse_line_cases (line : String) (e : LogEntry) :
    parse_line line e =
      match tokens line.data with
      | t1 :: t2 :: t3 :: t4 :: _ =>
        (true, ⟨(⟨t1⟩ : String) ++ " " ++ ⟨t2⟩, ⟨t3⟩, ⟨t4⟩,
                ⟨stripOneSpace (restAfter 4 line.data)⟩⟩)
      | [_, _, t3] => (false, { e with level := ⟨t3⟩ })
      | _ => (false, e) := by
  rcases h1 : nextTok line.data with _ | ⟨t1, r1⟩
  · have ht : tokens line.data = [] := tokens_eq_nil h1
    have e1 : extractToken ⟨line.data, false, false⟩ "" = (⟨[], true, true⟩, "") := by
      rw [extractToken_good, h1]
    rw [ht]
    simp [parse_line, e1, extractToken_dead]
  · have e1 : extractToken ⟨line.data, false, false⟩ "" = (⟨r1, r1.isEmpty, false⟩, ⟨t1⟩) := by
      rw [extractToken_good, h1]
    rcases h2 : nextTok r1 with _ | ⟨t2, r2⟩
    · have ht : tokens line.data = [t1] := by
        rw [tokens_eq_cons h1, tokens_eq_nil h2]
      have e2 : extractToken ⟨r1, r1.isEmpty, false⟩ "" = (⟨[], true, true⟩, "") := by
        rw [extractToken_after, h2]
      rw [ht]
      simp [parse_line, e1, e2, extractToken_dead]
    · have e2 : extractToken ⟨r1, r1.isEmpty, false⟩ "" = (⟨r2, r2.isEmpty, false⟩, ⟨t2⟩) := by
        rw [extractToken_after, h2]
      rcases h3 : nextTok r2 with _ | ⟨t3, r3⟩
      · have ht : tokens line.data = [t1, t2] := by
          rw [tokens_eq_cons h1, tokens_eq_cons h2, tokens_eq_nil h3]
        have e3 : extractToken ⟨r2, r2.isEmpty, false⟩ e.level = (⟨[], true, true⟩, e.level) := by
          rw [extractToken_after, h3]
        rw [ht]
        simp [parse_line, e1, e2, e3, extractToken_dead]
      · have e3 : extractToken ⟨r2, r2.isEmpty, false⟩ e.level = (⟨r3, r3.isEmpty, false⟩, ⟨t3⟩) := by
          rw [extractToken_after, h3]
        rcases h4 : nextTok r3 with _ | ⟨t4, r4⟩
        · have ht : tokens line.data = [t1, t2, t3] := by
            rw [tokens_eq_cons h1, tokens_eq_cons h2, tokens_eq_cons h3, tokens_eq_nil h4]
          have e4 : extractToken ⟨r3, r3.isEmpty, false⟩ e.service
              = (⟨[], true, true⟩, e.service) := by
            rw [extractToken_after, h4]
          rw [ht]
          simp [parse_line, e1, e2, e3, e4]
        · have ht : tokens line.data = t1 :: t2 :: t3 :: t4 :: tokens r4 := by
            rw [tokens_eq_cons h1, tokens_eq_cons h2, tokens_eq_cons h3, tokens_eq_cons h4]
          have e4 : extractToken ⟨r3, r3.isEmpty, false⟩ e.service
              = (⟨r4, r4.isEmpty, false⟩, ⟨t4⟩) := by
            rw [extractToken_after, h4]
          have hrest : restAfter 4 line.data = r4 := by
            simp [restAfter, h1, h2, h3, h4]
          rw [ht]
          simp [parse_line, e1, e2, e3, e4, hrest]

/-! ## Claims about the parser -/

/-- C3: `parse_line` succeeds exactly when the line has at least four
whitespace-separated tokens; the success flag does not depend on the
caller's entry; on success the produced record is determined by the line
alone (parsing is deterministic); and a blank line fails. -/
theorem C3_parse_success_iff (line : String) (e e' : LogEntry) :
    ((parse_line line e).1 = true ↔ 4 ≤ (tokens line.data).length)
    ∧ (parse_line line e).1 = (parse_line line e').1
    ∧ ((parse_line line e).1 = true → parse_line line e = parse_line line e')
    ∧ (parse_line "" e).1 = false := by
  have h0 : parse_line "" e = (false, e) := by
    simpa using parse_line_cases "" e
  have hc := parse_line_cases line e
  have hc' := parse_line_cases line e'
  rcases ht : tokens line.data with _ | ⟨t1, _ | ⟨t2, _ | ⟨t3, _ | ⟨t4, rest⟩⟩⟩⟩ <;>
    rw [ht] at hc hc'
  · exact ⟨by simp [hc], by rw [hc, hc'], by simp [hc], by simp [h0]⟩
  · exact ⟨by simp [hc], by rw [hc, hc'], by simp [hc], by simp [h0]⟩
  · exact ⟨by simp [hc], by rw [hc, hc'], by simp [hc], by simp [h0]⟩
  · exact ⟨by simp [hc], by rw [hc, hc'], by simp [hc], by simp [h0]⟩
  · refine ⟨by rw [hc]; simp, by rw [hc, hc'], fun _ => hc.trans hc'.symm,
      by simp [h0]⟩

/-- Witness for C3 at a five-token line and two different initial
entries. -/
theorem C3_witness :
    (parse_line "w x y z m" ⟨"a", "b", "c", "d"⟩).1 = true
    ∧ parse_line "w x y z m" ⟨"a", "b", "c", "d"⟩
        = parse_line "w x y z m" ⟨"p", "q", "r", "s"⟩ := by
  have h := C3_parse_success_iff "w x y z m" ⟨"a", "b", "c", "d"⟩ ⟨"p", "q", "r", "s"⟩
  exact ⟨h.1.mpr (by decide), h.2.2.1 (h.1.mpr (by decide))⟩

/-- C5: on a line with at least four tokens, `timestamp` is the first
token, a space, and the second token; `level` and `service` are the third
and fourth tokens; `message` is everything after the fourth token with at
most one leading space removed and the rest verbatim; in particular a
line with nothing after its fourth token gives an empty message. -/
theorem C5_record_fields (line : String) (e : LogEntry) (t1 t2 t3 t4 : List Char)
    (rest : List (List Char))
    (h : tokens line.data = t1 :: t2 :: t3 :: t4 :: rest) :
    (parse_line line e).1 = true
    ∧ (parse_line line e).2.timestamp = (⟨t1⟩ : String) ++ " " ++ ⟨t2⟩
    ∧ (parse_line line e).2.level = ⟨t3⟩
    ∧ (parse_line line e).2.service = ⟨t4⟩
    ∧ (parse_line line e).2.message = ⟨stripOneSpace (restAfter 4 line.data)⟩
    ∧ (restAfter 4 line.data = [] → (parse_line line e).2.message = "") := by
  have hc := parse_line_cases line e
  rw [h] at hc
  rw [hc]
  refine ⟨rfl, rfl, rfl, rfl, rfl, fun h4 => ?_⟩
  show (⟨stripOneSpace (restAfter 4 line.data)⟩ : String) = ""
  rw [h4]
  rfl

/-- Witness for C5: a line whose remainder after the fourth token starts
with a two-space run, checking the one-space strip and verbatim internal
whitespace. -/
theorem C5_witness :
    tokens "a b c d  x y".data = [['a'], ['b'], ['c'], ['d'], ['x'], ['y']]
    ∧ (parse_line "a b c d  x y" ⟨"", "", "", ""⟩).2.message = " x y"
    ∧ (parse_line "a b c d  x y" ⟨"", "", "", ""⟩).2.timestamp = "a b" := by
  have h := C5_record_fields "a b c d  x y" ⟨"", "", "", ""⟩
    ['a'] ['b'] ['c'] ['d'] [['x'], ['y']] (by decide)
  exact ⟨by decide, h.2.2.2.2.1.trans (by decide), h.2.1.trans (by decide)⟩

/-- C9 counterexample: on the claim's own example — a line with exactly
three tokens — `parse_line` returns false and overwrites `level`, but the
`service` field keeps its old value; it is not cleared. -/
theorem C9_counterexample :
    (parse_line "a b c" ⟨"T", "L", "S", "M"⟩).1 = false
    ∧ (parse_line "a b c" ⟨"T", "L", "S", "M"⟩).2.level = "c"
    ∧ (parse_line "a b c" ⟨"T", "L", "S", "M"⟩).2.service = "S"
    ∧ ("S" : String) ≠ "" := by decide

/-- C9 (amended): failure of `parse_line` is not atomic — on a
three-token line the returned entry has its `level` overwritten with the
third token — but a failed extraction never erases its destination, so on
every failing line the `service`, `timestamp` and `message` fields are
left unchanged. -/
theorem C9_failure_not_atomic (line : String) (e : LogEntry) :
    parse_line "a b c" e = (false, { e with level := "c" })
    ∧ ((parse_line line e).1 = false →
        (parse_line line e).2.service = e.service
        ∧ (parse_line line e).2.timestamp = e.timestamp
        ∧ (parse_line line e).2.message = e.message) := by
  constructor
  · have hc := parse_line_cases "a b c" e
    rw [show tokens "a b c".data = [['a'], ['b'], ['c']] from rfl] at hc
    simpa using hc
  · intro hf
    have hc := parse_line_cases line e
    rcases ht : tokens line.data with _ | ⟨t1, _ | ⟨t2, _ | ⟨t3, _ | ⟨t4, rest⟩⟩⟩⟩ <;>
      rw [ht] at hc
    · rw [hc]; exact ⟨rfl, rfl, rfl⟩
    · rw [hc]; exact ⟨rfl, rfl, rfl⟩
    · rw [hc]; exact ⟨rfl, rfl, rfl⟩
    · rw [hc]; exact ⟨rfl, rfl, rfl⟩
    · rw [hc] at hf; exact absurd hf (by simp)

/-- Witness for C9 (amended) at the three-token line. -/
theorem C9_witness :
    (parse_line "a b c" ⟨"T", "L", "S", "M"⟩).1 = false
    ∧ (parse_line "a b c" ⟨"T", "L", "S", "M"⟩).2.service = "S" := by
  have h := C9_failure_not_atomic "a b c" ⟨"T", "L", "S", "M"⟩
  exact ⟨by rw [h.1], ((h.2 (by rw [h.1])).1).trans rfl⟩

/-! ## OutputWriter -/

/-- The bytes one `OutputWriter::write` call sends to the destination:
`"[" << timestamp << "] " << level << ' ' << service << ' ' << message`,
then, when the destination is `std::cout`, `" (worker " << worker_id <<
")"`, then `'\n'`. -/
def renderLine (console : Bool) (e : LogEntry) (wid : Int) : String :=
  "[" ++ e.timestamp ++ "] " ++ e.level ++ " " ++ e.service ++ " " ++ e.message
    ++ (if console then " (worker " ++ toString wid ++ ")" else "") ++ "\n"

/-- The `OutputWriter` after construction: whether `target_` is
`&std::cout`, and the diagnostics written to `std::cerr` by the
constructor. -/
structure OutputWriter where
  isConsole : Bool
  diag : List String
deriving DecidableEq, Repr

/-- The `OutputWriter` constructor: an empty path leaves the default
console target; a path that opens switches the target to the file; a path
that fails to open emits one diagnostic and keeps the console target. -/
def mkOutputWriter (path : String) (openOk : Bool) : OutputWriter :=
  if path = "" then ⟨true, []⟩
  else if openOk then ⟨false, []⟩
  else ⟨true, ["Unable to open output file: " ++ path ++ ". Falling back to stdout."]⟩

/-- `OutputWriter::write`: returns the writer (whose state it never
touches) and the bytes appended to the destination. -/
def OutputWriter.write (w : OutputWriter) (e : LogEntry) (wid : Int) :
    OutputWriter × String :=
  (w, renderLine w.isConsole e wid)

/-! ## Claims about the writer -/

/-- C4 counterexample: for a record with an empty message the
file-destination line is not `[timestamp] level service` followed
directly by the newline — the separating space before the message is
always written, leaving a trailing space. -/
theorem C4_counterexample :
    renderLine false ⟨"2024-01-01 10:00:00", "INFO", "auth", ""⟩ 0
      = "[2024-01-01 10:00:00] INFO auth \n"
    ∧ renderLine false ⟨"2024-01-01 10:00:00", "INFO", "auth", ""⟩ 0
      ≠ "[2024-01-01 10:00:00] INFO auth" ++ "\n" := by
  constructor
  · decide
  · decide

/-- C4 (amended): `write` renders `[timestamp] level service message`
with single separating spaces — the space before the message is written
even when the message is empty, so an empty message leaves a trailing
space — appends the worker annotation exactly when the destination is the
console, and (for fields and worker id free of newline characters)
terminates the line with a single final newline. -/
theorem C4_render_format (console : Bool) (e : LogEntry) (wid : Int)
    (h : '\n' ∉ e.timestamp.data ∧ '\n' ∉ e.level.data ∧ '\n' ∉ e.service.data
      ∧ '\n' ∉ e.message.data ∧ '\n' ∉ (toString wid).data) :
    renderLine console e wid
      = "[" ++ e.timestamp ++ "] " ++ e.level ++ " " ++ e.service ++ " " ++ e.message
        ++ (if console then " (worker " ++ toString wid ++ ")" else "") ++ "\n"
    ∧ (renderLine console e wid).data.count '\n' = 1
    ∧ (renderLine console e wid).data.getLast? = some '\n'
    ∧ renderLine console { e with message := "" } wid
      = "[" ++ e.timestamp ++ "] " ++ e.level ++ " " ++ e.service ++ " "
        ++ (if console then " (worker " ++ toString wid ++ ")" else "") ++ "\n" := by
  obtain ⟨h1, h2, h3, h4, h5⟩ := h
  refine ⟨rfl, ?_, ?_, ?_⟩
  · rcases console with _ | _ <;>
      simp [renderLine, String.data_append, List.count_append,
        List.count_eq_zero.mpr h1, List.count_eq_zero.mpr h2,
        List.count_eq_zero.mpr h3, List.count_eq_zero.mpr h4,
        List.count_eq_zero.mpr h5]
  · rw [renderLine, String.data_append]
    rw [show ("\n" : String).data = ['\n'] from rfl]
    exact List.getLast?_concat _
  · apply String.ext
    simp [renderLine, String.data_append]

/-- Witness for C4 (amended) at a console line with worker id 0. -/
theorem C4_witness :
    renderLine true ⟨"2024-01-01 10:00:00", "INFO", "auth", "user logged in"⟩ 0
      = "[2024-01-01 10:00:00] INFO auth user logged in (worker 0)" ++ "\n"
    ∧ (renderLine true ⟨"2024-01-01 10:00:00", "INFO", "auth", "user logged in"⟩
        0).data.count '\n' = 1 := by
  have h := C4_render_format true
    ⟨"2024-01-01 10:00:00", "INFO", "auth", "user logged in"⟩ 0
    (by refine ⟨?_, ?_, ?_, ?_, ?_⟩ <;> decide)
  exact ⟨h.1.trans (by decide), h.2.1⟩

/-- C7: with no path, or with a path that fails to open, the destination
is the console — with exactly one construction-time diagnostic in the
open-failure case and none otherwise; every console-rendered line carries
the worker identity; `write` never changes the writer fixed at
construction; and `write` totally produces the rendered line (it has no
failure path). -/
theorem C7_sink_construction (path : String) (e : LogEntry) (wid : Int) (ok : Bool) :
    (mkOutputWriter "" ok).isConsole = true
    ∧ (mkOutputWriter "" ok).diag = []
    ∧ (mkOutputWriter path false).isConsole = true
    ∧ (mkOutputWriter path false).diag.length = (if path = "" then 0 else 1)
    ∧ ((mkOutputWriter path ok).write e wid).1 = mkOutputWriter path ok
    ∧ ((mkOutputWriter path ok).write e wid).2
        = renderLine (mkOutputWriter path ok).isConsole e wid
    ∧ (∃ a : String, ((mkOutputWriter path false).write e wid).2
        = a ++ " (worker " ++ toString wid ++ ")" ++ "\n") := by
  have hcon : (mkOutputWriter path false).isConsole = true := by
    by_cases hp : path = "" <;> simp [mkOutputWriter, hp]
  refine ⟨by simp [mkOutputWriter], by simp [mkOutputWriter], hcon, ?_, rfl, rfl, ?_⟩
  · by_cases hp : path = "" <;> simp [mkOutputWriter, hp]
  · refine ⟨"[" ++ e.timestamp ++ "] " ++ e.level ++ " " ++ e.service ++ " "
      ++ e.message, ?_⟩
    rw [OutputWriter.write, hcon]
    apply String.ext
    simp [renderLine, String.data_append]

/-! ## Concurrent writes through the sink

`OutputWriter::write` holds `mutex_` for its whole render-append-flush
body.  `SStep` is an interleaving small-step semantics for any set of
concurrent `write` calls: a pending call may acquire the free lock, the
lock holder appends its next chunk to the destination, and a holder with
nothing left releases.  Because a call acquires only when no other call
holds the lock, the model is exactly "the body is one critical
section". -/

/-- The successive pieces one `write` call inserts into the stream while
it holds the mutex. -/
def writeChunks (console : Bool) (e : LogEntry) (wid : Int) : List String :=
  ["[", e.timestamp, "] ", e.level, " ", e.service, " ", e.message]
    ++ (if console then [" (worker ", toString wid, ")"] else [])
    ++ ["\n"]

/-- Concatenation of a list of strings. -/
def joinAll : List String → String
  | [] => ""
  | c :: cs => c ++ joinAll cs

theorem string_append_assoc (a b c : String) : a ++ b ++ c = a ++ (b ++ c) := by
  apply String.ext
  simp [String.data_append]

theorem string_append_empty (a : String) : a ++ "" = a := by
  apply String.ext
  simp [String.data_append]

theorem joinAll_chunks (console : Bool) (e : LogEntry) (wid : Int) :
    joinAll (writeChunks console e wid) = renderLine console e wid := by
  rcases console with _ | _ <;>
    (apply String.ext; simp [writeChunks, joinAll, renderLine, String.data_append])

/-- The global state of the sink and its callers: `write` calls that have
not yet acquired the mutex, the lock holder together with its remaining
chunks (`none` when the mutex is free), the calls that have completed in
completion order, and the bytes of the destination stream. -/
structure SinkSys where
  waiting : List (LogEntry × Int)
  holding : Option ((LogEntry × Int) × List String)
  completed : List (LogEntry × Int)
  out : String

/-- One scheduler step of the concurrent `write` calls. -/
inductive SStep (console : Bool) : SinkSys → SinkSys → Prop where
  | acquire (w₁ w₂ : List (LogEntry × Int)) (p : LogEntry × Int)
      (c : List (LogEntry × Int)) (o : String) :
      SStep console ⟨w₁ ++ p :: w₂, none, c, o⟩
        ⟨w₁ ++ w₂, some (p, writeChunks console p.1 p.2), c, o⟩
  | emit (w : List (LogEntry × Int)) (p : LogEntry × Int) (ch : String)
      (cs : List String) (c : List (LogEntry × Int)) (o : String) :
      SStep console ⟨w, some (p, ch :: cs), c, o⟩ ⟨w, some (p, cs), c, o ++ ch⟩
  | release (w : List (LogEntry × Int)) (p : LogEntry × Int)
      (c : List (LogEntry × Int)) (o : String) :
      SStep console ⟨w, some (p, []), c, o⟩ ⟨w, none, c ++ [p], o⟩

/-- The concatenation of the rendered lines of `l`, in order. -/
def renders (console : Bool) (l : List (LogEntry × Int)) : String :=
  joinAll (l.map fun p => renderLine console p.1 p.2)

theorem renders_concat (console : Bool) (l : List (LogEntry × Int))
    (p : LogEntry × Int) :
    renders console (l ++ [p]) = renders console l ++ renderLine console p.1 p.2 := by
  induction l with
  | nil =>
    apply String.ext
    simp [renders, joinAll, String.data_append]
  | cons q qs ih =>
    show (renderLine console q.1 q.2) ++ renders console (qs ++ [p]) = _
    rw [ih]
    show _ = (renderLine console q.1 q.2) ++ renders console qs ++ _
    rw [string_append_assoc]

/-- The inductive invariant: the calls are conserved, and the destination
holds the complete lines of the completed calls followed by the emitted
part of the current holder's line. -/
def SinkInv (console : Bool) (entries : List (LogEntry × Int)) (s : SinkSys) : Prop :=
  match s.holding with
  | none =>
    (s.waiting ++ s.completed).Perm entries ∧ s.out = renders console s.completed
  | some (p, cs) =>
    (s.waiting ++ p :: s.completed).Perm entries
    ∧ s.out ++ joinAll cs = renders console s.completed ++ renderLine console p.1 p.2

theorem sinkInv_step {console : Bool} {entries : List (LogEntry × Int)}
    {s s' : SinkSys} (hstep : SStep console s s')
    (hinv : SinkInv console entries s) : SinkInv console entries s' := by
  cases hstep with
  | acquire w₁ w₂ p c o =>
    dsimp only [SinkInv] at hinv ⊢
    obtain ⟨hperm, hout⟩ := hinv
    refine ⟨?_, ?_⟩
    · refine List.Perm.trans ?_ hperm
      simp only [List.append_assoc, List.cons_append]
      exact List.Perm.append_left w₁ List.perm_middle
    · rw [hout, joinAll_chunks]
  | emit w p ch cs c o =>
    dsimp only [SinkInv] at hinv ⊢
    obtain ⟨hperm, hout⟩ := hinv
    exact ⟨hperm, by rw [string_append_assoc]; exact hout⟩
  | release w p c o =>
    dsimp only [SinkInv] at hinv ⊢
    obtain ⟨hperm, hout⟩ := hinv
    refine ⟨?_, ?_⟩
    · exact List.Perm.trans (List.Perm.append_left w (List.perm_append_singleton p c)) hperm
    · rw [renders_concat, ← hout]
      exact (string_append_empty o).symm

theorem sinkInv_reachable (console : Bool) (entries : List (LogEntry × Int))
    (s : SinkSys)
    (hreach : Relation.ReflTransGen (SStep console) ⟨entries, none, [], ""⟩ s) :
    SinkInv console entries s := by
  induction hreach with
  | refl => exact ⟨by simp, rfl⟩
  | tail hpre hstep ih => exact sinkInv_step hstep ih

/-- C2: for any set of concurrent `write` calls and any complete
interleaved execution, the destination's byte stream is the concatenation
of the complete rendered lines of the calls in some order — no bytes of
one call's line interleave with another's. -/
theorem C2_writes_not_interleaved (console : Bool)
    (entries : List (LogEntry × Int)) (s : SinkSys)
    (hreach : Relation.ReflTransGen (SStep console) ⟨entries, none, [], ""⟩ s)
    (hw : s.waiting = []) (hh : s.holding = none) :
    ∃ order : List (LogEntry × Int),
      order.Perm entries ∧ s.out = renders console order := by
  have hinv := sinkInv_reachable console entries s hreach
  rcases s with ⟨w, h, c, o⟩
  subst hw hh
  obtain ⟨hperm, hout⟩ := hinv
  exact ⟨c, by simpa using hperm, hout⟩

theorem emit_run (console : Bool) (w : List (LogEntry × Int))
    (p : LogEntry × Int) (c : List (LogEntry × Int)) :
    ∀ (cs : List String) (o : String),
      Relation.ReflTransGen (SStep console) ⟨w, some (p, cs), c, o⟩
        ⟨w, some (p, []), c, o ++ joinAll cs⟩ := by
  intro cs
  induction cs with
  | nil =>
    intro o
    rw [show o ++ joinAll [] = o from string_append_empty o]
  | cons ch cs ih =>
    intro o
    refine Relation.ReflTransGen.head (SStep.emit w p ch cs c o) ?_
    rw [show o ++ joinAll (ch :: cs) = o ++ ch ++ joinAll cs from
      (string_append_assoc o ch (joinAll cs)).symm]
    exact ih (o ++ ch)

/-- The record of the concrete witness run. -/
def wEnt : LogEntry := ⟨"t", "l", "s", "m"⟩

/-- The one write call of the concrete witness run. -/
def wPair : LogEntry × Int := (wEnt, 0)

/-- The final state of the concrete witness run. -/
def wFinal : SinkSys :=
  ⟨[], none, [wPair], "" ++ joinAll (writeChunks false wEnt 0)⟩

/-- Witness for C2: a complete run of a single file-destination write
call, driven through acquire, nine emits and release. -/
theorem C2_witness :
    ∃ order : List (LogEntry × Int),
      order.Perm [wPair] ∧ wFinal.out = renders false order := by
  refine C2_writes_not_interleaved false [wPair] wFinal ?_ rfl rfl
  refine Relation.ReflTransGen.head (SStep.acquire [] [] wPair [] "") ?_
  refine Relation.ReflTransGen.trans
    (emit_run false ([] ++ []) wPair [] (writeChunks false wPair.1 wPair.2) "") ?_
  exact Relation.ReflTransGen.single (SStep.release ([] ++ []) wPair [] _)

end Ingest
